import Mathlib

/-!
Verification of the VideoEditor repository's caption-segmentation algorithm,
SRT timestamp codec, and assembly-pipeline orchestration, shallowly embedded
from the Python sources (`test.py`, `main.py`, `test1.py`).

Fractional seconds are modelled as rationals (`ℚ`); Python's `%`, `//`,
`int()` (on nonnegative values) and `round` are given explicit counterparts.
-/

namespace VideoEditor

/-! ## Python string primitives

`str.split()` with no argument splits on runs of whitespace and drops empty
pieces; `str.strip()` removes leading and trailing whitespace. -/

/-- Whitespace test used by Python's `str.split()` / `str.strip()`
(restricted to the ASCII whitespace that can occur in transcripts). -/
def pyIsSpace (c : Char) : Bool :=
  c = ' ' || c = '\t' || c = '\n' || c = '\r'

/-- Accumulating core of `str.split()`: `acc` holds the current word,
reversed. Empty pieces are dropped, as Python's no-argument `split` does. -/
def pySplitAux : List Char → List Char → List (List Char)
  | [], acc => if acc.isEmpty then [] else [acc.reverse]
  | c :: rest, acc =>
    if pyIsSpace c then
      if acc.isEmpty then pySplitAux rest [] else acc.reverse :: pySplitAux rest []
    else
      pySplitAux rest (c :: acc)

/-- Python `s.split()` (no separator argument). -/
def pySplit (s : String) : List String :=
  (pySplitAux s.data []).map String.mk

/-- Python `s.strip()`. -/
def pyStrip (s : String) : String :=
  String.mk (((s.data.dropWhile pyIsSpace).reverse.dropWhile pyIsSpace).reverse)

/-! ## Data model (spec §3) -/

/-- A time-stamped transcript segment as returned by the transcription
collaborator (`seg["start"]`, `seg["end"]`, `seg["text"]`). The source's
`end` field is named `stop` because `end` is a Lean keyword. -/
structure TranscriptSegment where
  start : ℚ
  stop : ℚ
  text : String
deriving DecidableEq, Repr

/-- One subtitle cue: the SRT block index, the time range and the text. -/
structure CaptionCue where
  index : ℕ
  start : ℚ
  stop : ℚ
  text : String
deriving DecidableEq, Repr

/-! ## Caption Segmenter (test.py lines 62–91)

For each segment: `words = full_text.split()` after `strip()`;
`num_chunks = (len(words) + chunk_size - 1) // chunk_size`;
`sub_chunk_duration = (end - start) / max(num_chunks, 1)`; cue `i` runs from
`start + i * sub_chunk_duration` to `start + (i+1) * sub_chunk_duration`
with text `" ".join(words[i*chunk_size:(i+1)*chunk_size])`. The SRT index
counter is global across segments, starting at 1. -/

/-- `words = seg["text"].strip().split()`. -/
def segWords (seg : TranscriptSegment) : List String :=
  pySplit (pyStrip seg.text)

/-- `num_chunks = (len(words) + chunk_size - 1) // chunk_size`. -/
def numChunks (chunkSize : ℕ) (seg : TranscriptSegment) : ℕ :=
  ((segWords seg).length + chunkSize - 1) / chunkSize

/-- `sub_chunk_duration = segment_duration / max(num_chunks, 1)`. -/
def subChunkDuration (chunkSize : ℕ) (seg : TranscriptSegment) : ℚ :=
  (seg.stop - seg.start) / (max (numChunks chunkSize seg) 1 : ℕ)

/-- The cues emitted for one segment, with SRT indices
`counter, counter+1, …` (the loop body of test.py lines 78–91). -/
def segCues (chunkSize counter : ℕ) (seg : TranscriptSegment) : List CaptionCue :=
  (List.range (numChunks chunkSize seg)).map fun i =>
    { index := counter + i
      start := seg.start + i * subChunkDuration chunkSize seg
      stop := seg.start + (i + 1) * subChunkDuration chunkSize seg
      text := String.intercalate " "
        (((segWords seg).drop (i * chunkSize)).take chunkSize) }

/-- The whole-transcript loop: the counter is threaded across segments. -/
def buildTrackAux (chunkSize counter : ℕ) : List TranscriptSegment → List CaptionCue
  | [] => []
  | seg :: rest =>
    segCues chunkSize counter seg ++
      buildTrackAux chunkSize (counter + (segCues chunkSize counter seg).length) rest

/-- The caption track for a transcript: `segment_counter` starts at 1. -/
def buildTrack (chunkSize : ℕ) (segs : List TranscriptSegment) : List CaptionCue :=
  buildTrackAux chunkSize 1 segs

example : segWords ⟨0, 10, " one two  three four five "⟩ =
    ["one", "two", "three", "four", "five"] := by decide

/-! ### Word-group lemmas -/

section chunkLemmas

variable {α : Type*}

lemma ceil_div_drop (cs : ℕ) (hcs : 0 < cs) (ws : List α) (hne : ws ≠ []) :
    ((ws.drop cs).length + cs - 1) / cs + 1 = (ws.length + cs - 1) / cs := by
  have hlen : 1 ≤ ws.length := List.length_pos.2 hne
  rw [List.length_drop]
  rcases le_or_lt ws.length cs with h | h
  · have h1 : ws.length - cs = 0 := by omega
    have h2 : (0 + cs - 1) / cs = 0 := Nat.div_eq_of_lt (by omega)
    have h3 : ws.length + cs - 1 = (ws.length - 1) + cs := by omega
    rw [h1, h2, h3, Nat.add_div_right _ hcs, Nat.div_eq_of_lt (by omega)]
  · have h3 : ws.length + cs - 1 = (ws.length - 1) + cs := by omega
    have h4 : ws.length - cs + cs - 1 = ws.length - 1 := by omega
    rw [h4, h3, Nat.add_div_right _ hcs]

lemma flatten_chunks (cs : ℕ) (hcs : 0 < cs) :
    ∀ ws : List α,
      ((List.range ((ws.length + cs - 1) / cs)).map
        (fun j => (ws.drop (j * cs)).take cs)).flatten = ws := by
  intro ws
  generalize hn : (ws.length + cs - 1) / cs = n
  induction n generalizing ws with
  | zero =>
    have hlen : ws.length = 0 := by
      by_contra h
      have h2 : cs ≤ ws.length + cs - 1 := by omega
      have h3 : 1 ≤ (ws.length + cs - 1) / cs := (Nat.one_le_div_iff hcs).2 h2
      omega
    have hnil : ws = [] := List.length_eq_zero.1 hlen
    subst hnil
    simp
  | succ n ih =>
    have hne : ws ≠ [] := by
      rintro rfl
      rw [List.length_nil, Nat.zero_add, Nat.div_eq_of_lt (by omega)] at hn
      omega
    rw [List.range_succ_eq_map, List.map_cons, List.flatten_cons, List.map_map]
    have htail :
        (List.range n).map ((fun j => (ws.drop (j * cs)).take cs) ∘ Nat.succ)
          = (List.range n).map (fun j => ((ws.drop cs).drop (j * cs)).take cs) := by
      refine List.map_congr_left fun j _ => ?_
      simp only [Function.comp_apply]
      rw [List.drop_drop]
      congr 1
      have : Nat.succ j = j + 1 := rfl
      rw [this, Nat.add_mul, Nat.one_mul, Nat.add_comm]
    have hdroplen : ((ws.drop cs).length + cs - 1) / cs = n := by
      have := ceil_div_drop cs hcs ws hne
      omega
    rw [htail, ih (ws.drop cs) hdroplen, Nat.zero_mul, List.drop_zero,
      List.take_append_drop]

lemma chunk_ne_nil (cs : ℕ) (hcs : 0 < cs) (ws : List α) {j : ℕ}
    (hj : j < (ws.length + cs - 1) / cs) : (ws.drop (j * cs)).take cs ≠ [] := by
  have h1 : j + 1 ≤ (ws.length + cs - 1) / cs := hj
  have h2 : (j + 1) * cs ≤ ws.length + cs - 1 := (Nat.le_div_iff_mul_le hcs).1 h1
  rw [Nat.add_mul, Nat.one_mul] at h2
  obtain ⟨t, ht⟩ : ∃ t, t = j * cs := ⟨_, rfl⟩
  rw [← ht] at h2 ⊢
  have h3 : t < ws.length := by omega
  intro h
  rcases List.take_eq_nil_iff.1 h with h | h
  · omega
  · rw [List.drop_eq_nil_iff] at h
    omega

end chunkLemmas

/-! ### Per-segment cue lemmas -/

lemma segCues_length (cs counter : ℕ) (seg : TranscriptSegment) :
    (segCues cs counter seg).length = numChunks cs seg := by
  simp [segCues]

lemma subChunkDuration_of_pos {cs : ℕ} {seg : TranscriptSegment}
    (h : 1 ≤ numChunks cs seg) :
    subChunkDuration cs seg = (seg.stop - seg.start) / (numChunks cs seg : ℚ) := by
  rw [subChunkDuration, Nat.max_eq_left h]

lemma segCues_getElem? {cs counter : ℕ} {seg : TranscriptSegment} {j : ℕ}
    (hj : j < numChunks cs seg) :
    (segCues cs counter seg)[j]? = some
      { index := counter + j
        start := seg.start + j * subChunkDuration cs seg
        stop := seg.start + (j + 1) * subChunkDuration cs seg
        text := String.intercalate " "
          (((segWords seg).drop (j * cs)).take cs) } := by
  rw [segCues, List.getElem?_map, List.getElem?_range hj]
  rfl

lemma segCues_map_index (cs counter : ℕ) (seg : TranscriptSegment) :
    (segCues cs counter seg).map CaptionCue.index
      = List.range' counter (numChunks cs seg) := by
  rw [segCues, List.map_map, List.range'_eq_map_range]
  rfl

lemma segCues_mem_bounds {cs counter : ℕ} {seg : TranscriptSegment}
    (hseg : seg.start ≤ seg.stop) :
    ∀ cue ∈ segCues cs counter seg,
      seg.start ≤ cue.start ∧ cue.start ≤ cue.stop ∧ cue.stop ≤ seg.stop := by
  intro cue hcue
  rw [segCues, List.mem_map] at hcue
  obtain ⟨i, hi, rfl⟩ := hcue
  rw [List.mem_range] at hi
  have hn1 : 1 ≤ numChunks cs seg := by omega
  have hd : 0 ≤ subChunkDuration cs seg := by
    rw [subChunkDuration]
    apply div_nonneg (by linarith) (by positivity)
  have hnd : (numChunks cs seg : ℚ) * subChunkDuration cs seg
      = seg.stop - seg.start := by
    rw [subChunkDuration_of_pos hn1]
    have hne : (numChunks cs seg : ℚ) ≠ 0 := by positivity
    field_simp
  refine ⟨?_, ?_, ?_⟩
  · have h0 : 0 ≤ (i : ℚ) * subChunkDuration cs seg := by positivity
    dsimp only
    linarith
  · dsimp only
    have hexp : ((i : ℚ) + 1) * subChunkDuration cs seg
        = (i : ℚ) * subChunkDuration cs seg + subChunkDuration cs seg := by ring
    linarith [hexp]
  · dsimp only
    have hin : (i : ℚ) + 1 ≤ (numChunks cs seg : ℚ) := by exact_mod_cast hi
    have hmul : ((i : ℚ) + 1) * subChunkDuration cs seg
        ≤ (numChunks cs seg : ℚ) * subChunkDuration cs seg :=
      mul_le_mul_of_nonneg_right hin hd
    linarith

lemma mem_buildTrackAux {cs c : ℕ} {segs : List TranscriptSegment} {cue : CaptionCue}
    (h : cue ∈ buildTrackAux cs c segs) :
    ∃ seg ∈ segs, ∃ c0, cue ∈ segCues cs c0 seg := by
  induction segs generalizing c with
  | nil => cases h
  | cons seg rest ih =>
    rw [buildTrackAux, List.mem_append] at h
    rcases h with h | h
    · exact ⟨seg, List.mem_cons_self _ _, c, h⟩
    · obtain ⟨s, hs, c0, hc0⟩ := ih h
      exact ⟨s, List.mem_cons_of_mem _ hs, c0, hc0⟩

lemma buildTrackAux_map_index (cs : ℕ) (segs : List TranscriptSegment) :
    ∀ c, (buildTrackAux cs c segs).map CaptionCue.index
      = List.range' c (buildTrackAux cs c segs).length := by
  induction segs with
  | nil => intro c; rfl
  | cons seg rest ih =>
    intro c
    rw [buildTrackAux, List.map_append, List.length_append,
      segCues_map_index, ih, segCues_length]
    have happ := List.range'_append c (numChunks cs seg)
      (buildTrackAux cs (c + numChunks cs seg) rest).length 1
    rw [Nat.one_mul] at happ
    rw [happ, Nat.add_comm]

/-! ### Concrete test segments -/

/-- The five-word segment used by the spec's testable property (§8). -/
def sampleSeg : TranscriptSegment := ⟨0, 10, "one two three four five"⟩

lemma sampleSeg_numChunks : numChunks 3 sampleSeg = 2 := by decide

lemma sampleSeg_duration : subChunkDuration 3 sampleSeg = 5 := by
  rw [subChunkDuration, sampleSeg_numChunks]
  norm_num [sampleSeg]

lemma sampleSeg_cues : segCues 3 1 sampleSeg =
    [⟨1, 0, 5, "one two three"⟩, ⟨2, 5, 10, "four five"⟩] := by
  rw [segCues, sampleSeg_numChunks]
  norm_num [List.range_succ, sampleSeg_duration]
  exact ⟨⟨rfl, by decide⟩, rfl, by decide⟩

/-! ## Claim theorems for the Caption Segmenter -/

/-- C1: for every TranscriptSegment, the segmenter splits the text on
whitespace into words, partitions them into consecutive groups of
`wordsPerCue` words (the last group may be shorter, never empty, never
dropped), and with `n` the number of groups and
`slice = (end - start) / n` emits for group `j` a cue with
`start = segment.start + j * slice`, `end = start + slice`, and text the
group's words joined by a single space; a segment with `n = 0` contributes
no cues. -/
theorem C1_segmenter_per_segment (cs counter : ℕ) (seg : TranscriptSegment)
    (hcs : 0 < cs) :
    (segWords seg = [] → segCues cs counter seg = [])
    ∧ (segCues cs counter seg).length = numChunks cs seg
    ∧ ((List.range (numChunks cs seg)).map
        (fun j => ((segWords seg).drop (j * cs)).take cs)).flatten = segWords seg
    ∧ (∀ j, j < numChunks cs seg → ((segWords seg).drop (j * cs)).take cs ≠ [])
    ∧ (∀ j, j < numChunks cs seg →
        (segCues cs counter seg)[j]? = some
          { index := counter + j
            start := seg.start + j * ((seg.stop - seg.start) / (numChunks cs seg : ℚ))
            stop := seg.start + j * ((seg.stop - seg.start) / (numChunks cs seg : ℚ))
                      + (seg.stop - seg.start) / (numChunks cs seg : ℚ)
            text := String.intercalate " "
              (((segWords seg).drop (j * cs)).take cs) }) := by
  refine ⟨?_, segCues_length cs counter seg, ?_, ?_, ?_⟩
  · intro h
    have : numChunks cs seg = 0 := by
      rw [numChunks, h, List.length_nil]
      exact Nat.div_eq_of_lt (by omega)
    rw [segCues, this]
    rfl
  · exact flatten_chunks cs hcs (segWords seg)
  · intro j hj
    exact chunk_ne_nil cs hcs (segWords seg) hj
  · intro j hj
    rw [segCues_getElem? hj]
    have hn1 : 1 ≤ numChunks cs seg := by omega
    rw [subChunkDuration_of_pos hn1]
    simp only [Option.some.injEq, CaptionCue.mk.injEq, eq_self_iff_true,
      and_true, true_and]
    ring

/-- C1 witness: the segment "one two three four five" with `wordsPerCue = 3`
instantiates the hypothesis `0 < wordsPerCue`. -/
theorem C1_witness :
    0 < 3 ∧ (segCues 3 1 sampleSeg).length = numChunks 3 sampleSeg :=
  ⟨by decide, (C1_segmenter_per_segment 3 1 sampleSeg (by decide)).2.1⟩

/-- C4: every emitted cue's interval lies within its source segment's
interval, and cue indices across the whole track are dense, 1-based and
strictly increasing in emission order (captured by
`map index = [1, 2, …, length]`), including when some segments contribute
zero cues. -/
theorem C4_track_invariants (cs : ℕ) (segs : List TranscriptSegment)
    (hseg : ∀ seg ∈ segs, seg.start ≤ seg.stop) :
    (∀ cue ∈ buildTrack cs segs, ∃ seg ∈ segs,
        seg.start ≤ cue.start ∧ cue.start ≤ cue.stop ∧ cue.stop ≤ seg.stop)
    ∧ (buildTrack cs segs).map CaptionCue.index
        = List.range' 1 (buildTrack cs segs).length := by
  constructor
  · intro cue hcue
    obtain ⟨seg, hsegmem, c0, hc0⟩ := mem_buildTrackAux hcue
    exact ⟨seg, hsegmem, segCues_mem_bounds (hseg seg hsegmem) cue hc0⟩
  · exact buildTrackAux_map_index cs segs 1

/-- C4 witness: a three-segment transcript whose middle segment has no
words satisfies the hypothesis and keeps dense indices. -/
theorem C4_witness :
    (∀ seg ∈ [(⟨0, 2, "a b c d e"⟩ : TranscriptSegment), ⟨2, 3, "  "⟩, ⟨3, 4, "f"⟩],
        seg.start ≤ seg.stop)
    ∧ (buildTrack 4 [⟨0, 2, "a b c d e"⟩, ⟨2, 3, "  "⟩, ⟨3, 4, "f"⟩]).map
        CaptionCue.index
      = List.range' 1
          (buildTrack 4 [⟨0, 2, "a b c d e"⟩, ⟨2, 3, "  "⟩, ⟨3, 4, "f"⟩]).length :=
  ⟨by norm_num, (C4_track_invariants 4 _ (by norm_num)).2⟩

/-- C10: for a segment yielding at least one word group, the emitted cues
exactly tile the segment's interval under exact rational arithmetic: the
first cue starts at `segment.start`, each cue's end is the next cue's
start, the last cue ends at `segment.end`, and the durations sum to
`segment.end - segment.start`. -/
theorem C10_exact_tiling (cs counter : ℕ) (seg : TranscriptSegment)
    (h : 1 ≤ numChunks cs seg) :
    ((segCues cs counter seg).head?.map CaptionCue.start = some seg.start)
    ∧ (∀ j, j + 1 < numChunks cs seg →
        ((segCues cs counter seg)[j]?.map CaptionCue.stop)
          = ((segCues cs counter seg)[j + 1]?.map CaptionCue.start))
    ∧ ((segCues cs counter seg).getLast?.map CaptionCue.stop = some seg.stop)
    ∧ ((segCues cs counter seg).map (fun c => c.stop - c.start)).sum
        = seg.stop - seg.start := by
  have hpos : (0 : ℚ) < (numChunks cs seg : ℚ) := by exact_mod_cast h
  have hne : (numChunks cs seg : ℚ) ≠ 0 := hpos.ne'
  have hnd : (numChunks cs seg : ℚ) * subChunkDuration cs seg
      = seg.stop - seg.start := by
    rw [subChunkDuration_of_pos h]
    field_simp
  refine ⟨?_, ?_, ?_, ?_⟩
  · rw [List.head?_eq_getElem?, segCues_getElem? (by omega)]
    norm_num
  · intro j hj
    rw [segCues_getElem? (by omega : j < numChunks cs seg), segCues_getElem? hj]
    simp only [Option.map_some']
    congr 1
    push_cast
    ring_nf
  · rw [List.getLast?_eq_getElem?, segCues_length, segCues_getElem? (by omega)]
    simp only [Option.map_some', Option.some.injEq]
    have hcast : ((numChunks cs seg - 1 : ℕ) : ℚ) = (numChunks cs seg : ℚ) - 1 :=
      Nat.cast_sub h
    rw [hcast]
    have hrw : ((numChunks cs seg : ℚ) - 1 + 1) * subChunkDuration cs seg
        = (numChunks cs seg : ℚ) * subChunkDuration cs seg := by ring
    rw [hrw, hnd]
    ring
  · rw [segCues, List.map_map]
    rw [List.map_congr_left (g := fun _ => subChunkDuration cs seg)
      (fun i _ => by dsimp only [Function.comp_apply]; ring)]
    rw [List.map_const', List.length_range, List.sum_replicate, nsmul_eq_mul, hnd]

/-- C10 witness: the five-word sample segment has two word groups, so the
hypothesis `1 ≤ n` holds; its cue durations sum to the segment duration. -/
theorem C10_witness :
    1 ≤ numChunks 3 sampleSeg ∧
      ((segCues 3 1 sampleSeg).map (fun c => c.stop - c.start)).sum
        = sampleSeg.stop - sampleSeg.start :=
  ⟨by decide, (C10_exact_tiling 3 1 sampleSeg (by decide)).2.2.2⟩

/-- C5 counterexample: for the segment `"one two three four five"` with
`wordsPerCue = 3` over `[0, 10]`, the two cue texts are as claimed but the
durations are `[5, 5]` — equal — and not in ratio 3:2 of the total
duration (which would be `[6, 4]`). -/
theorem C5_counterexample :
    (segCues 3 1 sampleSeg).map CaptionCue.text = ["one two three", "four five"]
    ∧ (segCues 3 1 sampleSeg).map (fun c => c.stop - c.start) = [5, 5]
    ∧ ¬ ((segCues 3 1 sampleSeg).map (fun c => c.stop - c.start)
          = [3 / 5 * (sampleSeg.stop - sampleSeg.start),
             2 / 5 * (sampleSeg.stop - sampleSeg.start)]) := by
  rw [sampleSeg_cues]
  refine ⟨by decide, by norm_num, ?_⟩
  intro hcontra
  simp only [List.map_cons, List.map_nil, List.cons.injEq] at hcontra
  have h1 := hcontra.1
  rw [show sampleSeg.stop - sampleSeg.start = (10 : ℚ) from by
    norm_num [sampleSeg]] at h1
  norm_num at h1

/-- C5 amended: for a segment with text `"one two three four five"` and
`wordsPerCue = 3`, two cues are emitted — `"one two three"` and
`"four five"` — and their durations are equal (each half the segment's
total duration): the code divides the segment into `n` equal slices
regardless of group sizes, so the ratio is 1:1, not 3:2. -/
theorem C5_amended (s e : ℚ) :
    (segCues 3 1 ⟨s, e, "one two three four five"⟩).map CaptionCue.text
        = ["one two three", "four five"]
    ∧ (segCues 3 1 ⟨s, e, "one two three four five"⟩).map
        (fun c => c.stop - c.start) = [(e - s) / 2, (e - s) / 2] := by
  have hw : segWords ⟨s, e, "one two three four five"⟩
      = ["one", "two", "three", "four", "five"] := by
    show pySplit (pyStrip "one two three four five")
        = ["one", "two", "three", "four", "five"]
    decide
  have hn : numChunks 3 ⟨s, e, "one two three four five"⟩ = 2 := by
    rw [numChunks, hw]
    decide
  have hdur : subChunkDuration 3 ⟨s, e, "one two three four five"⟩ = (e - s) / 2 := by
    rw [subChunkDuration, hn]
    norm_num
  constructor
  · rw [segCues, hn]
    norm_num [List.range_succ, hw]
    constructor <;> decide
  · rw [segCues, hn]
    norm_num [List.range_succ, hdur]
    ring_nf

/-- C6: the code does not reject a segment with `end <= start`; it emits a
zero-length cue for it. Evaluating the segmenter at the failing input
(a segment with `end = start = 1` and text `"hi"`, `wordsPerCue = 4` as in
the source) yields one cue whose start and end coincide. -/
theorem C6_zero_length_cue_emitted :
    segCues 4 1 ⟨1, 1, "hi"⟩ = [⟨1, 1, 1, "hi"⟩]
    ∧ ∃ cue ∈ segCues 4 1 ⟨1, 1, "hi"⟩, ¬ cue.start < cue.stop := by
  have hn : numChunks 4 ⟨1, 1, "hi"⟩ = 1 := by decide
  have hdur : subChunkDuration 4 ⟨1, 1, "hi"⟩ = 0 := by
    rw [subChunkDuration, hn]
    norm_num
  have hcues : segCues 4 1 ⟨1, 1, "hi"⟩ = [⟨1, 1, 1, "hi"⟩] := by
    rw [segCues, hn]
    norm_num [List.range_succ, hdur]
    decide
  refine ⟨hcues, ?_⟩
  rw [hcues]
  exact ⟨⟨1, 1, 1, "hi"⟩, List.mem_singleton_self _, by norm_num⟩

/-! ## Assembly Orchestrator (test.py `main`, steps C–G)

The pipeline after transcription is straight-line code whose branching
depends only on the three toggles and on whether each external
`subprocess.run(..., check=True)` call (and the OpenAI call) succeeds.
External outcomes are therefore modelled as an explicit environment; the
pipeline function returns the list of external invocations it issued, the
`final_video` value, and whether the script ran to `ALL DONE` or aborted
(an uncaught `CalledProcessError`). Only the title-overlay invocation is
wrapped in try/except in the source: its failure sets
`final_video = stacked_video` and execution continues. -/

/-- The three toggle options of test.py (lines 36–38). -/
structure RunConfig where
  includeSubtitles : Bool
  doClickbaitTitle : Bool
  doChunkSplitting : Bool
deriving DecidableEq, Repr

/-- Outcomes of the external collaborators: `titleGen = some t` means the
OpenAI call returns `t`; `none` means it raises. The four Booleans are the
exit statuses of the four ffmpeg invocations. -/
structure ExtWorld where
  titleGen : Option String
  burnOk : Bool
  stackOk : Bool
  overlayOk : Bool
  chunkOk : Bool
deriving DecidableEq, Repr

/-- File-name constants of test.py (lines 25–33). -/
def mainVideo : String := "videos/main4.mp4"

def bottomVideo : String := "videos/bottom2.mp4"

def mainSubtitledVideo : String := "temp/main_subtitled.mp4"

def stackedVideo : String := "temp/vertical_merged.mp4"

def finalWithTitle : String := "temp/final_with_title.mp4"

def chunkPattern : String := "output/chunks/chunk_%03d.mp4"

/-- Initial value of `ai_title` (test.py line 100). -/
def defaultTitle : String := "DEFAULT CLICKBAIT TITLE"

/-- Fallback assigned in the `except` branch of the OpenAI call
(test.py line 114). -/
def fallbackTitle : String := "You Won't Believe This Shocking Moment!"

/-- One external-tool invocation with its input artifact(s). -/
inductive Invocation where
  | burn (input output : String)
  | stack (top bottom output : String)
  | overlay (input title output : String)
  | chunk (input pattern : String)
deriving DecidableEq, Repr

/-- The input artifact paths an invocation reads. -/
def Invocation.inputs : Invocation → List String
  | .burn i _ => [i]
  | .stack t b _ => [t, b]
  | .overlay i _ _ => [i]
  | .chunk i _ => [i]

/-- Result of one run: the issued invocations in order, the `final_video`
variable (meaningful only when the run completed), and the stage at which
an uncaught error aborted the script, if any. -/
structure RunOutcome where
  trace : List Invocation
  finalVideo : String
  failedStage : Option String
deriving DecidableEq, Repr

/-- `ai_title` after step C: the fallback replaces a failed OpenAI call;
without the toggle, the initial value survives. -/
def aiTitle (cfg : RunConfig) (ext : ExtWorld) : String :=
  if cfg.doClickbaitTitle then
    match ext.titleGen with
    | some t => t
    | none => fallbackTitle
  else defaultTitle

/-- Steps D–G of test.py `main`: burn (optional), stack, title overlay
(failure caught, falls back to the stacked video), chunk split (optional). -/
def runPipeline (cfg : RunConfig) (ext : ExtWorld) : RunOutcome :=
  let title := aiTitle cfg ext
  if cfg.includeSubtitles && !ext.burnOk then
    { trace := [.burn mainVideo mainSubtitledVideo]
      finalVideo := ""
      failedStage := some "burn" }
  else
    let burnTrace : List Invocation :=
      if cfg.includeSubtitles then [.burn mainVideo mainSubtitledVideo] else []
    let current : String :=
      if cfg.includeSubtitles then mainSubtitledVideo else mainVideo
    let stackInv : Invocation := .stack current bottomVideo stackedVideo
    if !ext.stackOk then
      { trace := burnTrace ++ [stackInv]
        finalVideo := ""
        failedStage := some "stack" }
    else
      let overlayInv : Invocation := .overlay stackedVideo title finalWithTitle
      let final : String := if ext.overlayOk then finalWithTitle else stackedVideo
      if cfg.doChunkSplitting then
        if !ext.chunkOk then
          { trace := burnTrace ++ [stackInv, overlayInv, .chunk final chunkPattern]
            finalVideo := final
            failedStage := some "chunk" }
        else
          { trace := burnTrace ++ [stackInv, overlayInv, .chunk final chunkPattern]
            finalVideo := final
            failedStage := none }
      else
        { trace := burnTrace ++ [stackInv, overlayInv]
          finalVideo := final
          failedStage := none }

/-! ## Claim theorems for the Orchestrator -/

/-- C3: with the title toggle on and the overlay invocation failing, the
run does not abort: the final artifact is the stacked (pre-overlay) video,
the run completes, and when chunking is configured the chunk stage is
invoked on the stacked video. -/
theorem C3_overlay_fallback (cfg : RunConfig) (ext : ExtWorld)
    (htitle : cfg.doClickbaitTitle = true)
    (hoverlay : ext.overlayOk = false)
    (hburn : cfg.includeSubtitles = true → ext.burnOk = true)
    (hstack : ext.stackOk = true)
    (hchunk : cfg.doChunkSplitting = true → ext.chunkOk = true) :
    (runPipeline cfg ext).failedStage = none
    ∧ (runPipeline cfg ext).finalVideo = stackedVideo
    ∧ (cfg.doChunkSplitting = true →
        Invocation.chunk stackedVideo chunkPattern ∈ (runPipeline cfg ext).trace) := by
  rcases cfg with ⟨is, ti, ch⟩
  cases is <;> cases ch <;>
    simp_all [runPipeline, hstack, hoverlay, hburn, hchunk]

/-- C3 witness: all toggles on, every stage succeeding except the overlay
invocation. -/
theorem C3_witness :
    ((⟨true, true, true⟩ : RunConfig).doClickbaitTitle = true
      ∧ (⟨some "T", true, true, false, true⟩ : ExtWorld).overlayOk = false)
    ∧ (runPipeline ⟨true, true, true⟩ ⟨some "T", true, true, false, true⟩).finalVideo
        = stackedVideo :=
  ⟨⟨rfl, rfl⟩,
    (C3_overlay_fallback ⟨true, true, true⟩ ⟨some "T", true, true, false, true⟩
      rfl rfl (fun _ => rfl) rfl (fun _ => rfl)).2.1⟩

/-- C7: with `includeSubtitles = False` the burn stage is never invoked,
the vertical-stack invocation's top input is the original main video, and
no invocation reads the burn stage's output artifact. -/
theorem C7_skip_burn (cfg : RunConfig) (ext : ExtWorld)
    (hsub : cfg.includeSubtitles = false) :
    (∀ i o, Invocation.burn i o ∉ (runPipeline cfg ext).trace)
    ∧ (∀ top bot out, Invocation.stack top bot out ∈ (runPipeline cfg ext).trace →
        top = mainVideo)
    ∧ (∀ inv ∈ (runPipeline cfg ext).trace, mainSubtitledVideo ∉ inv.inputs) := by
  rcases cfg with ⟨is, ti, ch⟩
  cases is
  · cases hst : ext.stackOk <;> cases ch <;> cases hov : ext.overlayOk <;>
      cases hch : ext.chunkOk <;>
      simp_all [runPipeline, Invocation.inputs, mainVideo, mainSubtitledVideo,
        stackedVideo, finalWithTitle, bottomVideo]
  · cases hsub

/-- C7 witness: a run with subtitles off and every stage succeeding. -/
theorem C7_witness :
    (⟨false, true, true⟩ : RunConfig).includeSubtitles = false
    ∧ (∀ top bot out,
        Invocation.stack top bot out
            ∈ (runPipeline ⟨false, true, true⟩ ⟨some "T", true, true, true, true⟩).trace →
          top = mainVideo) :=
  ⟨rfl, (C7_skip_burn ⟨false, true, true⟩ ⟨some "T", true, true, true, true⟩ rfl).2.1⟩

/-- C8: with the title toggle on and the title-generation collaborator
failing, the orchestrator substitutes the fixed fallback string and still
attempts the overlay invocation with that title; the title failure is
never surfaced as a run failure (the run's completion status and failed
stage are exactly those of a run whose title call succeeded). -/
theorem C8_title_fallback (cfg : RunConfig) (ext : ExtWorld)
    (htitle : cfg.doClickbaitTitle = true)
    (hfail : ext.titleGen = none) :
    aiTitle cfg ext = fallbackTitle
    ∧ (ext.stackOk = true → (cfg.includeSubtitles = true → ext.burnOk = true) →
        Invocation.overlay stackedVideo fallbackTitle finalWithTitle
          ∈ (runPipeline cfg ext).trace)
    ∧ (∀ t, (runPipeline cfg ext).failedStage
        = (runPipeline cfg { ext with titleGen := some t }).failedStage) := by
  have htitleval : aiTitle cfg ext = fallbackTitle := by
    rw [aiTitle, htitle, hfail]
    simp
  refine ⟨htitleval, ?_, ?_⟩
  · intro hstack hburn
    rcases cfg with ⟨is, ti, ch⟩
    cases is <;> cases ch <;>
      simp_all [runPipeline, aiTitle, hstack, hburn] <;>
      cases ext.overlayOk <;> simp_all <;> cases ext.chunkOk <;> simp_all
  · intro t
    rcases cfg with ⟨is, ti, ch⟩
    cases is <;> cases ch <;> cases hb : ext.burnOk <;> cases hst : ext.stackOk <;>
      cases hov : ext.overlayOk <;> cases hch : ext.chunkOk <;>
      simp_all [runPipeline]

/-- C8 witness: title toggle on, OpenAI call failing, all ffmpeg stages
succeeding. -/
theorem C8_witness :
    ((⟨true, true, true⟩ : RunConfig).doClickbaitTitle = true
      ∧ (⟨none, true, true, true, true⟩ : ExtWorld).titleGen = none)
    ∧ aiTitle ⟨true, true, true⟩ ⟨none, true, true, true, true⟩ = fallbackTitle :=
  ⟨⟨rfl, rfl⟩,
    (C8_title_fallback ⟨true, true, true⟩ ⟨none, true, true, true, true⟩
      rfl rfl).1⟩

/-! ## Timestamp Codec

`seconds_to_srt_timestamp` appears identically in main.py (191–199),
test.py (225–231) and test1.py (108–114). Python's `//` and `%` on
nonnegative floats are floor division and real remainder; `int()` on a
nonnegative value is the floor; `round` is round-half-to-even. -/

/-- The decimal digit character for `d` (clamped to `'9'` for `d ≥ 9`,
which never occurs for `d = n % 10`). -/
def digitChar (d : ℕ) : Char :=
  match d with
  | 0 => '0' | 1 => '1' | 2 => '2' | 3 => '3' | 4 => '4'
  | 5 => '5' | 6 => '6' | 7 => '7' | 8 => '8' | _ => '9'

/-- Numeric value of a digit character. -/
def digitVal (c : Char) : ℕ := c.toNat - 48

/-- Least-significant-first decimal digits of `n`; structural recursion on
a fuel bound so the kernel can evaluate it. -/
def natDigitsRev : ℕ → ℕ → List Char
  | 0, _ => []
  | fuel + 1, n => if n = 0 then [] else digitChar (n % 10) :: natDigitsRev fuel (n / 10)

/-- Decimal digits of `n`, most significant first. -/
def natDigits (n : ℕ) : List Char :=
  if n = 0 then ['0'] else (natDigitsRev n n).reverse

/-- Python's zero-padded minimum-width formatting `f"{v:0w}"` for a
nonnegative value: wider values keep all their digits. -/
def formatNat (w v : ℕ) : List Char :=
  List.replicate (w - (natDigits v).length) '0' ++ natDigits v

/-- Python's `round` on our rational embedding: round half to even. -/
def pyRound (x : ℚ) : ℤ :=
  if x - ⌊x⌋ < 1 / 2 then ⌊x⌋
  else if 1 / 2 < x - ⌊x⌋ then ⌊x⌋ + 1
  else if ⌊x⌋ % 2 = 0 then ⌊x⌋ else ⌊x⌋ + 1

/-- Python's `%` on rationals (for a positive modulus). -/
def pymod (a b : ℚ) : ℚ := a - b * ⌊a / b⌋

/-- `seconds_to_srt_timestamp` (main.py 191–199):
`hours = int(seconds // 3600)`, `minutes = int((seconds % 3600) // 60)`,
`secs = int(seconds % 60)`,
`millis = int(round((seconds - int(seconds)) * 1000))`, rendered as
`f"{hours:02}:{minutes:02}:{secs:02},{millis:03}"`. Faithful on the
documented domain `seconds ≥ 0`, where Python's `int()` truncation
coincides with the floor. -/
def seconds_to_srt_timestamp (seconds : ℚ) : String :=
  String.mk (formatNat 2 (⌊seconds / 3600⌋).toNat
    ++ ':' :: formatNat 2 (⌊pymod seconds 3600 / 60⌋).toNat
    ++ ':' :: formatNat 2 (⌊pymod seconds 60⌋).toNat
    ++ ',' :: formatNat 3 (pyRound ((seconds - ⌊seconds⌋) * 1000)).toNat)

/-- Split a character list at every occurrence of `sep`. -/
def splitCh (sep : Char) : List Char → List (List Char)
  | [] => [[]]
  | c :: rest =>
    if c = sep then [] :: splitCh sep rest
    else
      match splitCh sep rest with
      | [] => [[c]]
      | h :: t => (c :: h) :: t

/-- Decimal value of a digit string, most significant first. -/
def parseDigits (l : List Char) : ℕ :=
  l.foldl (fun a c => 10 * a + digitVal c) 0

/-- Modelled from the spec (character-level core of the decoder): split
on `:` into hours, minutes and the rest, split the rest on `,` into
seconds and milliseconds, and yield `h*3600 + m*60 + s + ms/1000`
seconds; malformed shapes yield `none`. -/
def parseTimestampChars (l : List Char) : Option ℚ :=
  match splitCh ':' l with
  | [hh, mm, rest] =>
    match splitCh ',' rest with
    | [ss, ms] =>
      some ((parseDigits hh : ℚ) * 3600 + (parseDigits mm : ℚ) * 60
        + (parseDigits ss : ℚ) + (parseDigits ms : ℚ) / 1000)
    | _ => none
  | _ => none

/-- Modelled from the spec: the repository defines no decoder; spec §4.1
says `decode` "should exist for round-trip testing" of the
`HH:MM:SS,mmm` timestamp strings. -/
def srt_timestamp_to_seconds (s : String) : Option ℚ :=
  parseTimestampChars s.data

/-! ### Digit-string lemmas -/

lemma digitVal_digitChar {d : ℕ} (hd : d < 10) : digitVal (digitChar d) = d := by
  interval_cases d <;> rfl

lemma digitChar_mem (d : ℕ) :
    digitChar d ∈ ['0', '1', '2', '3', '4', '5', '6', '7', '8', '9'] := by
  rcases d with _ | _ | _ | _ | _ | _ | _ | _ | _ | d <;> simp [digitChar]

lemma digitChar_not_sep (d : ℕ) : digitChar d ≠ ':' ∧ digitChar d ≠ ',' := by
  have h := digitChar_mem d
  simp only [List.mem_cons, List.not_mem_nil, or_false] at h
  rcases h with h | h | h | h | h | h | h | h | h | h <;> rw [h] <;>
    exact ⟨by decide, by decide⟩

/-- Least-significant-first value of a digit list. -/
def revVal : List Char → ℕ
  | [] => 0
  | c :: r => digitVal c + 10 * revVal r

lemma revVal_natDigitsRev : ∀ fuel n, n ≤ fuel → revVal (natDigitsRev fuel n) = n := by
  intro fuel
  induction fuel with
  | zero =>
    intro n hn
    have : n = 0 := by omega
    subst this
    rfl
  | succ fuel ih =>
    intro n hn
    rw [natDigitsRev]
    by_cases h0 : n = 0
    · subst h0; simp [revVal]
    · rw [if_neg h0, revVal, digitVal_digitChar (Nat.mod_lt n (by omega)),
        ih (n / 10) (by omega)]
      omega

lemma mem_natDigitsRev : ∀ fuel n c, c ∈ natDigitsRev fuel n →
    ∃ d, d < 10 ∧ c = digitChar d := by
  intro fuel
  induction fuel with
  | zero => intro n c h; cases h
  | succ fuel ih =>
    intro n c h
    rw [natDigitsRev] at h
    by_cases h0 : n = 0
    · rw [if_pos h0] at h; cases h
    · rw [if_neg h0] at h
      rcases List.mem_cons.1 h with h | h
      · exact ⟨n % 10, Nat.mod_lt n (by omega), h⟩
      · exact ih _ c h

lemma mem_natDigits_not_sep {n : ℕ} {c : Char} (h : c ∈ natDigits n) :
    c ≠ ':' ∧ c ≠ ',' := by
  rw [natDigits] at h
  split at h
  · rcases List.mem_singleton.1 h with rfl
    exact ⟨by decide, by decide⟩
  · obtain ⟨d, _, rfl⟩ := mem_natDigitsRev n n c (List.mem_reverse.1 h)
    exact digitChar_not_sep d

lemma mem_formatNat_not_sep {w v : ℕ} {c : Char} (h : c ∈ formatNat w v) :
    c ≠ ':' ∧ c ≠ ',' := by
  rw [formatNat] at h
  rcases List.mem_append.1 h with h | h
  · rcases List.eq_of_mem_replicate h with rfl
    exact ⟨by decide, by decide⟩
  · exact mem_natDigits_not_sep h

lemma parseDigits_reverse : ∀ l : List Char, parseDigits l.reverse = revVal l := by
  intro l
  induction l with
  | nil => rfl
  | cons c r ih =>
    rw [List.reverse_cons, parseDigits, List.foldl_append]
    rw [parseDigits] at ih
    rw [ih, revVal]
    simp only [List.foldl_cons, List.foldl_nil]
    ring

lemma parseDigits_replicate_zero (k : ℕ) (l : List Char) :
    parseDigits (List.replicate k '0' ++ l) = parseDigits l := by
  induction k with
  | zero => rfl
  | succ k ih =>
    rw [List.replicate_succ, List.cons_append, parseDigits, List.foldl_cons]
    have : 10 * 0 + digitVal '0' = 0 := rfl
    rw [this]
    exact ih

lemma parseDigits_formatNat (w v : ℕ) : parseDigits (formatNat w v) = v := by
  rw [formatNat, parseDigits_replicate_zero, natDigits]
  split
  · subst v; rfl
  · rw [parseDigits_reverse, revVal_natDigitsRev v v le_rfl]

/-! ### Splitting lemmas -/

lemma splitCh_of_not_mem {sep : Char} {l : List Char} (h : ∀ c ∈ l, c ≠ sep) :
    splitCh sep l = [l] := by
  induction l with
  | nil => rfl
  | cons c rest ih =>
    rw [splitCh, if_neg (h c (List.mem_cons_self _ _)),
      ih (fun x hx => h x (List.mem_cons_of_mem _ hx))]

lemma splitCh_append {sep : Char} {a : List Char} (b : List Char)
    (h : ∀ c ∈ a, c ≠ sep) :
    splitCh sep (a ++ sep :: b) = a :: splitCh sep b := by
  induction a with
  | nil => rw [List.nil_append, splitCh, if_pos rfl]
  | cons c rest ih =>
    rw [List.cons_append, splitCh, if_neg (h c (List.mem_cons_self _ _)),
      ih (fun x hx => h x (List.mem_cons_of_mem _ hx))]

/-- Decoding the rendered four fields recovers them. -/
lemma decode_encode_fields (h m s ms : ℕ) :
    srt_timestamp_to_seconds (String.mk (formatNat 2 h
      ++ ':' :: formatNat 2 m ++ ':' :: formatNat 2 s
      ++ ',' :: formatNat 3 ms))
    = some ((h : ℚ) * 3600 + (m : ℚ) * 60 + (s : ℚ) + (ms : ℚ) / 1000) := by
  have hbridge : srt_timestamp_to_seconds (String.mk (formatNat 2 h
      ++ ':' :: formatNat 2 m ++ ':' :: formatNat 2 s
      ++ ',' :: formatNat 3 ms))
      = parseTimestampChars (formatNat 2 h
        ++ ':' :: formatNat 2 m ++ ':' :: formatNat 2 s
        ++ ',' :: formatNat 3 ms) := rfl
  rw [hbridge]
  have hsplit1 : splitCh ':' (formatNat 2 h
      ++ ':' :: (formatNat 2 m ++ ':' :: (formatNat 2 s ++ ',' :: formatNat 3 ms)))
      = formatNat 2 h :: splitCh ':'
          (formatNat 2 m ++ ':' :: (formatNat 2 s ++ ',' :: formatNat 3 ms)) :=
    splitCh_append _ (fun c hc => (mem_formatNat_not_sep hc).1)
  have hsplit2 : splitCh ':' (formatNat 2 m
      ++ ':' :: (formatNat 2 s ++ ',' :: formatNat 3 ms))
      = formatNat 2 m :: splitCh ':' (formatNat 2 s ++ ',' :: formatNat 3 ms) :=
    splitCh_append _ (fun c hc => (mem_formatNat_not_sep hc).1)
  have hsplit3 : splitCh ':' (formatNat 2 s ++ ',' :: formatNat 3 ms)
      = [formatNat 2 s ++ ',' :: formatNat 3 ms] := by
    refine splitCh_of_not_mem fun c hc => ?_
    rcases List.mem_append.1 hc with hc | hc
    · exact (mem_formatNat_not_sep hc).1
    · rcases List.mem_cons.1 hc with rfl | hc
      · decide
      · exact (mem_formatNat_not_sep hc).1
  have hsplit4 : splitCh ',' (formatNat 2 s ++ ',' :: formatNat 3 ms)
      = [formatNat 2 s, formatNat 3 ms] := by
    rw [splitCh_append _ (fun c hc => (mem_formatNat_not_sep hc).2),
      splitCh_of_not_mem (fun c hc => (mem_formatNat_not_sep hc).2)]
  rw [parseTimestampChars.eq_def]
  simp only [List.cons_append, List.append_assoc]
  rw [hsplit1, hsplit2, hsplit3]
  dsimp only
  rw [hsplit4]
  dsimp only
  rw [parseDigits_formatNat, parseDigits_formatNat, parseDigits_formatNat,
    parseDigits_formatNat]

/-! ### Floor decomposition of the H:M:S fields -/

lemma floor_pymod_toNat (q : ℚ) (hq : 0 ≤ q) (n : ℕ) :
    (⌊pymod q (n : ℚ)⌋).toNat = ⌊q⌋₊ % n := by
  rw [pymod]
  have hnn : 0 ≤ ⌊q / (n : ℚ)⌋ :=
    Int.floor_nonneg.2 (div_nonneg hq (by positivity))
  have hz : ⌊q / (n : ℚ)⌋ = ((⌊q⌋₊ / n : ℕ) : ℤ) := by
    rw [← Int.toNat_of_nonneg hnn, Int.floor_toNat, Nat.floor_div_nat]
  have h1 : ((⌊q / (n : ℚ)⌋ : ℤ) : ℚ) = (((⌊q⌋₊ / n : ℕ) : ℤ) : ℚ) :=
    congrArg (fun z : ℤ => (z : ℚ)) hz
  rw [h1]
  have h2 : (n : ℚ) * (((⌊q⌋₊ / n : ℕ) : ℤ) : ℚ) = ((n * (⌊q⌋₊ / n) : ℕ) : ℚ) := by
    rw [Int.cast_natCast]
    push_cast
    ring
  rw [h2, Int.floor_toNat, Nat.floor_sub_nat]
  obtain ⟨p, hp⟩ : ∃ p, p = n * (⌊q⌋₊ / n) := ⟨_, rfl⟩
  have hdm := Nat.div_add_mod ⌊q⌋₊ n
  rw [← hp] at hdm ⊢
  omega

lemma hms_decomp (q : ℚ) (hq : 0 ≤ q) :
    (⌊q / 3600⌋).toNat * 3600 + (⌊pymod q 3600 / 60⌋).toNat * 60
      + (⌊pymod q 60⌋).toNat = ⌊q⌋₊ := by
  have c3600 : ((3600 : ℕ) : ℚ) = (3600 : ℚ) := by norm_num
  have c60 : ((60 : ℕ) : ℚ) = (60 : ℚ) := by norm_num
  have h1 : (⌊q / 3600⌋).toNat = ⌊q⌋₊ / 3600 := by
    rw [← c3600, Int.floor_toNat, Nat.floor_div_nat]
  have h2 : (⌊pymod q 60⌋).toNat = ⌊q⌋₊ % 60 := by
    rw [← c60]
    exact floor_pymod_toNat q hq 60
  have h3 : (⌊pymod q 3600 / 60⌋).toNat = (⌊q⌋₊ % 3600) / 60 := by
    have h := floor_pymod_toNat q hq 3600
    rw [Int.floor_toNat, c3600] at h
    rw [← c60, Int.floor_toNat, Nat.floor_div_nat, h]
  rw [h1, h2, h3]
  omega

/-! ### Rounding lemmas -/

lemma pyRound_nonneg {x : ℚ} (hx : 0 ≤ x) : 0 ≤ pyRound x := by
  have h := Int.floor_nonneg.2 hx
  rw [pyRound]
  split_ifs <;> omega

lemma abs_pyRound_sub (x : ℚ) : |(pyRound x : ℚ) - x| ≤ 1 / 2 := by
  have h1 := Int.floor_le x
  have h2 := Int.lt_floor_add_one x
  rw [pyRound]
  split_ifs with ha hb hc <;>
    (rw [abs_le]; constructor <;> (push_cast; linarith))

/-! ## Claim theorems for the Timestamp Codec -/

/-- C2: the code's `seconds_to_srt_timestamp` rounds the millisecond
component but does not carry a rounding result of exactly 1000 into the
seconds field: at `seconds = 0.9999` it emits a four-digit millisecond
field, `"00:00:00,1000"`, not the claimed `"00:00:01,000"`. -/
theorem C2_millis_no_carry :
    seconds_to_srt_timestamp (9999 / 10000) = "00:00:00,1000"
    ∧ seconds_to_srt_timestamp (9999 / 10000) ≠ "00:00:01,000" := by
  have h1 : ⌊(9999 / 10000 : ℚ) / 3600⌋ = 0 := by norm_num
  have hfq : ⌊(9999 / 10000 : ℚ)⌋ = 0 := by norm_num
  have h3 : ⌊(9999 / 10000 : ℚ) / 60⌋ = 0 := by norm_num
  have h2 : pymod (9999 / 10000 : ℚ) 3600 = 9999 / 10000 := by
    rw [pymod, h1]
    norm_num
  have h4 : pymod (9999 / 10000 : ℚ) 60 = 9999 / 10000 := by
    rw [pymod, h3]
    norm_num
  have h6 : pyRound (9999 / 10 : ℚ) = 1000 := by
    have hf : ⌊(9999 / 10 : ℚ)⌋ = 999 := by norm_num
    rw [pyRound, hf]
    rw [if_neg (by norm_num), if_pos (by norm_num)]
    norm_num
  have henc : seconds_to_srt_timestamp (9999 / 10000) = "00:00:00,1000" := by
    rw [seconds_to_srt_timestamp, h1, h2, h3, h4, hfq]
    rw [show ((9999 / 10000 : ℚ) - ((0 : ℤ) : ℚ)) * 1000 = 9999 / 10 from by
      norm_num]
    rw [h6]
    decide
  exact ⟨henc, by rw [henc]; decide⟩

/-- C9: decoding an encoded nonnegative timestamp recovers the seconds
value to millisecond precision (`decode ∘ encode` is the identity up to
1 ms); `decode` is spec-modelled since the repository defines none. -/
theorem C9_decode_encode_roundtrip (q : ℚ) (hq : 0 ≤ q) :
    ∃ r, srt_timestamp_to_seconds (seconds_to_srt_timestamp q) = some r
      ∧ |r - q| ≤ 1 / 1000 := by
  have henc : srt_timestamp_to_seconds (seconds_to_srt_timestamp q)
      = some (((⌊q / 3600⌋).toNat : ℚ) * 3600
          + ((⌊pymod q 3600 / 60⌋).toNat : ℚ) * 60
          + ((⌊pymod q 60⌋).toNat : ℚ)
          + ((pyRound ((q - ⌊q⌋) * 1000)).toNat : ℚ) / 1000) :=
    decode_encode_fields _ _ _ _
  refine ⟨_, henc, ?_⟩
  have hsum := hms_decomp q hq
  have hcast : ((⌊q / 3600⌋).toNat : ℚ) * 3600
      + ((⌊pymod q 3600 / 60⌋).toNat : ℚ) * 60
      + ((⌊pymod q 60⌋).toNat : ℚ) = (⌊q⌋₊ : ℚ) := by
    exact_mod_cast hsum
  have hNfloor : ((⌊q⌋₊ : ℕ) : ℚ) = ((⌊q⌋ : ℤ) : ℚ) := by
    have h0 : ((⌊q⌋₊ : ℕ) : ℤ) = ⌊q⌋ := by
      rw [← Int.floor_toNat]
      exact Int.toNat_of_nonneg (Int.floor_nonneg.2 hq)
    exact_mod_cast h0
  have hfr : 0 ≤ (q - ⌊q⌋) * 1000 :=
    mul_nonneg (by linarith [Int.floor_le q]) (by norm_num)
  have hms : ((pyRound ((q - ⌊q⌋) * 1000)).toNat : ℚ)
      = ((pyRound ((q - ⌊q⌋) * 1000) : ℤ) : ℚ) := by
    exact_mod_cast Int.toNat_of_nonneg (pyRound_nonneg hfr)
  rw [hcast, hNfloor, hms]
  have hsplit : ((⌊q⌋ : ℤ) : ℚ)
      + ((pyRound ((q - ⌊q⌋) * 1000) : ℤ) : ℚ) / 1000 - q
      = (((pyRound ((q - ⌊q⌋) * 1000) : ℤ) : ℚ) - (q - ⌊q⌋) * 1000) / 1000 := by
    ring
  rw [hsplit, abs_div, abs_of_pos (by norm_num : (0 : ℚ) < 1000)]
  have habs := abs_pyRound_sub ((q - ⌊q⌋) * 1000)
  linarith

/-- C9 witness: the value 3661.5 seconds is nonnegative and decodes back
within a millisecond. -/
theorem C9_witness :
    (0 : ℚ) ≤ 7323 / 2
    ∧ ∃ r, srt_timestamp_to_seconds (seconds_to_srt_timestamp (7323 / 2)) = some r
        ∧ |r - 7323 / 2| ≤ 1 / 1000 :=
  ⟨by norm_num, C9_decode_encode_roundtrip (7323 / 2) (by norm_num)⟩

end VideoEditor
